import Mathlib

/-!
Verification of the GenesisQC sequence-QC pipeline core.

Strings from the Python source are embedded as `List Char`.  Python's
`str.strip` / `str.upper` / `str.lower` are modelled per character
(`Char.isWhitespace`, `Char.toUpper`, `Char.toLower`), which is faithful on
the ASCII data the pipeline operates on.  Fallible functions (Python
`raise ValueError`) are embedded as `Except String`.  Python floats are
embedded as exact rationals `ℚ`; every numeric claim below concerns values
that are exactly representable.  The external Biopython parsers are, per the
spec, outside the core: record streams enter the embedding as lists of raw
records (`FastaRaw` / `FastqRaw`), exactly the shapes the source iterates
over.
-/

namespace GenesisQC

/-- Python `s.strip()` on a character list: drop whitespace from both ends. -/
def trimChars (s : List Char) : List Char :=
  ((s.dropWhile Char.isWhitespace).reverse.dropWhile Char.isWhitespace).reverse

/-- Line `s = (seq or "").strip().upper()` of `composition.atgc_content`. -/
def normalize (s : List Char) : List Char :=
  (trimChars s).map Char.toUpper

/-- The per-character U→T rewrite done inside the counting loop of
`atgc_content` when `treat_u_as_t` is set. -/
def uRewrite (treat_u_as_t : Bool) (ch : Char) : Char :=
  if treat_u_as_t ∧ ch = 'U' then 'T' else ch

/-- The six counters of `atgc_content`'s `counts` dict. -/
structure Counts where
  a : Nat
  t : Nat
  g : Nat
  c : Nat
  n : Nat
  amb : Nat
deriving DecidableEq

/-- One iteration of `atgc_content`'s classification loop, after the U→T
rewrite: membership in `CANONICAL = set("ACGT")` increments that base's
counter, `N` increments the N counter, anything else increments AMB. -/
def classifyCore (cs : Counts) (ch : Char) : Counts :=
  if ch = 'A' ∨ ch = 'C' ∨ ch = 'G' ∨ ch = 'T' then
    if ch = 'A' then { cs with a := cs.a + 1 }
    else if ch = 'C' then { cs with c := cs.c + 1 }
    else if ch = 'G' then { cs with g := cs.g + 1 }
    else { cs with t := cs.t + 1 }
  else if ch = 'N' then { cs with n := cs.n + 1 }
  else { cs with amb := cs.amb + 1 }

/-- One full iteration of the counting loop (U→T rewrite, then classify). -/
def classifyStep (treat_u_as_t : Bool) (cs : Counts) (ch : Char) : Counts :=
  classifyCore cs (uRewrite treat_u_as_t ch)

/-- The whole counting loop of `atgc_content` over the normalized sequence. -/
def countBases (treat_u_as_t : Bool) (s : List Char) : Counts :=
  s.foldl (classifyStep treat_u_as_t) ⟨0, 0, 0, 0, 0, 0⟩

/-- Embeds `composition.BaseComposition`: counts over {A,T,G,C,N,AMB}, the chosen
denominator, and the optional A/T/G/C fractions. -/
structure BaseComposition where
  a : Nat
  t : Nat
  g : Nat
  c : Nat
  n : Nat
  amb : Nat
  denom : Nat
  fracA : Option ℚ
  fracT : Option ℚ
  fracG : Option ℚ
  fracC : Option ℚ
deriving DecidableEq

/-- Building the `BaseComposition` value returned by `atgc_content` from the
counters and the chosen denominator; fractions are `counts[b] / denom` when
`denom > 0` and `None` otherwise. -/
def mkComp (cs : Counts) (denom : Nat) : BaseComposition :=
  { a := cs.a, t := cs.t, g := cs.g, c := cs.c, n := cs.n, amb := cs.amb
    denom := denom
    fracA := if 0 < denom then some ((cs.a : ℚ) / denom) else none
    fracT := if 0 < denom then some ((cs.t : ℚ) / denom) else none
    fracG := if 0 < denom then some ((cs.g : ℚ) / denom) else none
    fracC := if 0 < denom then some ((cs.c : ℚ) / denom) else none }

/-- Embeds `composition.atgc_content`: normalize, count, pick the denominator by
mode (`raw` = normalized length, `canonical` = A+T+G+C), raise on any other
mode. -/
def atgc_content (seq : List Char) (mode : String) (treat_u_as_t : Bool) :
    Except String BaseComposition :=
  let s := normalize seq
  let counts := countBases treat_u_as_t s
  if mode = "raw" then .ok (mkComp counts s.length)
  else if mode = "canonical" then
    .ok (mkComp counts (counts.a + counts.t + counts.g + counts.c))
  else .error "mode must be raw or canonical"

/-- Embeds `composition.gc_fraction`: `(G+C)/denom`, `None` when the denominator of
the corresponding `atgc_content` call is zero. -/
def gc_fraction (seq : List Char) (mode : String) (treat_u_as_t : Bool) :
    Except String (Option ℚ) :=
  (atgc_content seq mode treat_u_as_t).map fun comp =>
    if comp.denom = 0 then none
    else some (((comp.g : ℚ) + comp.c) / comp.denom)

/-- Total function giving the `BaseComposition` that `atgc_content` returns
on a valid mode (`compOf s "raw" t` / `compOf s "canonical" t`). -/
def compOf (seq : List Char) (mode : String) (treat_u_as_t : Bool) :
    BaseComposition :=
  let s := normalize seq
  let counts := countBases treat_u_as_t s
  if mode = "raw" then mkComp counts s.length
  else mkComp counts (counts.a + counts.t + counts.g + counts.c)

/-- Total function giving the value `gc_fraction` returns on a valid mode. -/
def gcOf (seq : List Char) (mode : String) (treat_u_as_t : Bool) : Option ℚ :=
  let comp := compOf seq mode treat_u_as_t
  if comp.denom = 0 then none
  else some (((comp.g : ℚ) + comp.c) / comp.denom)

/-- A mode string accepted by the composition analyzer. -/
def validMode (mode : String) : Prop :=
  mode = "canonical" ∨ mode = "raw"

instance (mode : String) : Decidable (validMode mode) := by
  unfold validMode; infer_instance

/-- The normalization named by the spec for stating C1: trim surrounding
whitespace, uppercase, and rewrite U to T when enabled.  (The source keeps
the U→T rewrite inside its counting loop; this definition follows the
spec's wording so that the source's counters can be compared against plain
character counts of this list.) -/
def specNormalize (treat_u_as_t : Bool) (s : List Char) : List Char :=
  (normalize s).map (uRewrite treat_u_as_t)

theorem atgc_content_valid (seq : List Char) (mode : String)
    (t : Bool) (h : validMode mode) :
    atgc_content seq mode t = .ok (compOf seq mode t) := by
  rcases h with h | h <;> subst h <;> rfl

theorem gc_fraction_valid (seq : List Char) (mode : String)
    (t : Bool) (h : validMode mode) :
    gc_fraction seq mode t = .ok (gcOf seq mode t) := by
  rcases h with h | h <;> subst h <;> rfl

theorem atgc_content_invalid (seq : List Char) (mode : String)
    (t : Bool) (h : ¬ validMode mode) :
    atgc_content seq mode t = .error "mode must be raw or canonical" := by
  have h1 : ¬ mode = "canonical" := fun hc => h (Or.inl hc)
  have h2 : ¬ mode = "raw" := fun hc => h (Or.inr hc)
  unfold atgc_content
  rw [if_neg h2, if_neg h1]

theorem mkComp_a (cs : Counts) (d : Nat) : (mkComp cs d).a = cs.a := rfl

theorem mkComp_t (cs : Counts) (d : Nat) : (mkComp cs d).t = cs.t := rfl

theorem mkComp_g (cs : Counts) (d : Nat) : (mkComp cs d).g = cs.g := rfl

theorem mkComp_c (cs : Counts) (d : Nat) : (mkComp cs d).c = cs.c := rfl

theorem mkComp_n (cs : Counts) (d : Nat) : (mkComp cs d).n = cs.n := rfl

theorem mkComp_amb (cs : Counts) (d : Nat) : (mkComp cs d).amb = cs.amb := rfl

theorem mkComp_denom (cs : Counts) (d : Nat) : (mkComp cs d).denom = d := rfl

theorem mkComp_fracA_isSome (cs : Counts) (d : Nat) :
    (mkComp cs d).fracA.isSome ↔ 0 < d := by
  unfold mkComp; split_ifs with h <;> simp [h]

theorem mkComp_fracT_isSome (cs : Counts) (d : Nat) :
    (mkComp cs d).fracT.isSome ↔ 0 < d := by
  unfold mkComp; split_ifs with h <;> simp [h]

theorem mkComp_fracG_isSome (cs : Counts) (d : Nat) :
    (mkComp cs d).fracG.isSome ↔ 0 < d := by
  unfold mkComp; split_ifs with h <;> simp [h]

theorem mkComp_fracC_isSome (cs : Counts) (d : Nat) :
    (mkComp cs d).fracC.isSome ↔ 0 < d := by
  unfold mkComp; split_ifs with h <;> simp [h]

/-- Every `BaseComposition` produced on a valid mode is `mkComp` of the
counters of the normalized sequence with some denominator. -/
theorem compOf_shape (s : List Char) (mode : String) (t : Bool) :
    ∃ d, compOf s mode t = mkComp (countBases t (normalize s)) d := by
  unfold compOf
  split_ifs <;> exact ⟨_, rfl⟩

theorem compOf_denom_raw (s : List Char) (t : Bool) :
    (compOf s "raw" t).denom = (normalize s).length := rfl

theorem compOf_denom_canonical (s : List Char) (t : Bool) :
    (compOf s "canonical" t).denom =
      (countBases t (normalize s)).a + (countBases t (normalize s)).t +
      (countBases t (normalize s)).g + (countBases t (normalize s)).c := by
  unfold compOf
  rw [if_neg (by decide)]
  rfl

theorem classifyCore_a (cs : Counts) (ch : Char) :
    (classifyCore cs ch).a = cs.a + (if ch = 'A' then 1 else 0) := by
  unfold classifyCore
  split_ifs <;> simp_all

theorem classifyCore_t (cs : Counts) (ch : Char) :
    (classifyCore cs ch).t = cs.t + (if ch = 'T' then 1 else 0) := by
  unfold classifyCore
  split_ifs <;> simp_all

theorem classifyCore_g (cs : Counts) (ch : Char) :
    (classifyCore cs ch).g = cs.g + (if ch = 'G' then 1 else 0) := by
  unfold classifyCore
  split_ifs <;> simp_all

theorem classifyCore_c (cs : Counts) (ch : Char) :
    (classifyCore cs ch).c = cs.c + (if ch = 'C' then 1 else 0) := by
  unfold classifyCore
  split_ifs <;> simp_all

/-- Sum of all six counters. -/
def Counts.total (cs : Counts) : Nat :=
  cs.a + cs.t + cs.g + cs.c + cs.n + cs.amb

theorem classifyCore_total (cs : Counts) (ch : Char) :
    (classifyCore cs ch).total = cs.total + 1 := by
  unfold classifyCore Counts.total
  split_ifs <;> simp <;> omega

theorem foldl_classifyCore_a (l : List Char) :
    ∀ cs : Counts, (l.foldl classifyCore cs).a = cs.a + l.count 'A' := by
  induction l with
  | nil => intro cs; simp
  | cons ch l ih =>
    intro cs
    rw [List.foldl_cons, ih, classifyCore_a, List.count_cons]
    simp only [beq_iff_eq]
    split_ifs <;> omega

theorem foldl_classifyCore_t (l : List Char) :
    ∀ cs : Counts, (l.foldl classifyCore cs).t = cs.t + l.count 'T' := by
  induction l with
  | nil => intro cs; simp
  | cons ch l ih =>
    intro cs
    rw [List.foldl_cons, ih, classifyCore_t, List.count_cons]
    simp only [beq_iff_eq]
    split_ifs <;> omega

theorem foldl_classifyCore_g (l : List Char) :
    ∀ cs : Counts, (l.foldl classifyCore cs).g = cs.g + l.count 'G' := by
  induction l with
  | nil => intro cs; simp
  | cons ch l ih =>
    intro cs
    rw [List.foldl_cons, ih, classifyCore_g, List.count_cons]
    simp only [beq_iff_eq]
    split_ifs <;> omega

theorem foldl_classifyCore_c (l : List Char) :
    ∀ cs : Counts, (l.foldl classifyCore cs).c = cs.c + l.count 'C' := by
  induction l with
  | nil => intro cs; simp
  | cons ch l ih =>
    intro cs
    rw [List.foldl_cons, ih, classifyCore_c, List.count_cons]
    simp only [beq_iff_eq]
    split_ifs <;> omega

theorem foldl_classifyCore_total (l : List Char) :
    ∀ cs : Counts, (l.foldl classifyCore cs).total = cs.total + l.length := by
  induction l with
  | nil => intro cs; simp
  | cons ch l ih =>
    intro cs
    rw [List.foldl_cons, ih, classifyCore_total, List.length_cons]
    omega

/-- The counting loop equals counting over the U-rewritten list. -/
theorem countBases_eq_core (t : Bool) (s : List Char) :
    countBases t s = (s.map (uRewrite t)).foldl classifyCore ⟨0, 0, 0, 0, 0, 0⟩ := by
  unfold countBases
  rw [List.foldl_map]
  rfl

theorem countBases_a (t : Bool) (s : List Char) :
    (countBases t s).a = (s.map (uRewrite t)).count 'A' := by
  rw [countBases_eq_core, foldl_classifyCore_a]; simp

theorem countBases_t (t : Bool) (s : List Char) :
    (countBases t s).t = (s.map (uRewrite t)).count 'T' := by
  rw [countBases_eq_core, foldl_classifyCore_t]; simp

theorem countBases_g (t : Bool) (s : List Char) :
    (countBases t s).g = (s.map (uRewrite t)).count 'G' := by
  rw [countBases_eq_core, foldl_classifyCore_g]; simp

theorem countBases_c (t : Bool) (s : List Char) :
    (countBases t s).c = (s.map (uRewrite t)).count 'C' := by
  rw [countBases_eq_core, foldl_classifyCore_c]; simp

theorem countBases_total (t : Bool) (s : List Char) :
    (countBases t s).total = s.length := by
  rw [countBases_eq_core, foldl_classifyCore_total]
  simp [Counts.total]

/-- C1.  With mode `canonical` the denominator returned by `atgc_content` is
`count(A)+count(T)+count(G)+count(C)` of the normalized sequence (trimmed,
uppercased, U rewritten to T when enabled), and with mode `raw` it is the
length of that normalized sequence — for every input string and either
setting of the U→T rewrite. -/
theorem C1_denominator_by_mode (s : List Char) (t : Bool) :
    (atgc_content s "canonical" t).map BaseComposition.denom =
      .ok ((specNormalize t s).count 'A' + (specNormalize t s).count 'T' +
           (specNormalize t s).count 'G' + (specNormalize t s).count 'C') ∧
    (atgc_content s "raw" t).map BaseComposition.denom =
      .ok ((specNormalize t s).length) := by
  rw [atgc_content_valid s "canonical" t (Or.inl rfl),
      atgc_content_valid s "raw" t (Or.inr rfl)]
  constructor
  · simp only [Except.map, compOf_denom_canonical, specNormalize,
      countBases_a, countBases_t, countBases_g, countBases_c]
  · simp only [Except.map, compOf_denom_raw, specNormalize, List.length_map]

/-- C10.  The six counters returned by `atgc_content` partition the
normalized sequence: their sum is the length of the trimmed, uppercased
input — for every input, every mode that returns at all, and either setting
of the U→T rewrite. -/
theorem C10_counters_partition (s : List Char) (mode : String) (t : Bool)
    (comp : BaseComposition) (h : atgc_content s mode t = .ok comp) :
    comp.a + comp.t + comp.g + comp.c + comp.n + comp.amb =
      (normalize s).length := by
  by_cases hv : validMode mode
  · rw [atgc_content_valid s mode t hv] at h
    injection h with h
    subst h
    obtain ⟨d, hd⟩ := compOf_shape s mode t
    rw [hd, mkComp_a, mkComp_t, mkComp_g, mkComp_c, mkComp_n, mkComp_amb]
    have htot := countBases_total t (normalize s)
    unfold Counts.total at htot
    omega
  · rw [atgc_content_invalid s mode t hv] at h
    exact absurd h (by simp)

/-- Witness for C10 at a concrete input: `" acgU n?"` normalizes to a string
of length 7 and the six counters sum to 7. -/
theorem C10_counters_partition_witness :
    ∃ comp : BaseComposition,
      atgc_content " acgU n?".data "canonical" true = .ok comp ∧
      comp.a + comp.t + comp.g + comp.c + comp.n + comp.amb =
        (normalize " acgU n?".data).length := by
  refine ⟨compOf " acgU n?".data "canonical" true, rfl, ?_⟩
  exact C10_counters_partition " acgU n?".data "canonical" true _ rfl

/-- C2.  For every sequence and both modes, the A/T/G/C fractions of the
returned `BaseComposition` are all defined iff `denom > 0`; when `denom = 0`
all four are `None` (never a numeric 0), and `gc_fraction` likewise returns
`None` exactly when `denom = 0`. -/
theorem C2_fractions_defined_iff_denom_pos (s : List Char) (mode : String)
    (t : Bool) (comp : BaseComposition)
    (h : atgc_content s mode t = .ok comp) :
    ((comp.fracA.isSome ∧ comp.fracT.isSome ∧ comp.fracG.isSome ∧
        comp.fracC.isSome) ↔ 0 < comp.denom) ∧
    (comp.denom = 0 →
      comp.fracA = none ∧ comp.fracT = none ∧ comp.fracG = none ∧
        comp.fracC = none) ∧
    gc_fraction s mode t = .ok (if comp.denom = 0 then none
      else some (((comp.g : ℚ) + comp.c) / comp.denom)) := by
  have hcomp : comp = compOf s mode t := by
    by_cases hv : validMode mode
    · rw [atgc_content_valid s mode t hv] at h
      injection h with h
      exact h.symm
    · rw [atgc_content_invalid s mode t hv] at h
      exact absurd h (by simp)
  obtain ⟨d, hd⟩ := compOf_shape s mode t
  refine ⟨?_, ?_, ?_⟩
  · rw [hcomp, hd, mkComp_fracA_isSome, mkComp_fracT_isSome,
      mkComp_fracG_isSome, mkComp_fracC_isSome, mkComp_denom]
    tauto
  · intro h0
    rw [hcomp, hd, mkComp_denom] at h0
    subst h0
    rw [hcomp, hd]
    unfold mkComp
    simp
  · unfold gc_fraction
    rw [h]
    rfl

/-- Witness for C2 at concrete inputs: `"NN"` in canonical mode has
`denom = 0` and all fractions undefined, and `gc_fraction` is `none`. -/
theorem C2_fractions_defined_iff_denom_pos_witness :
    ∃ comp : BaseComposition,
      atgc_content "NN".data "canonical" true = .ok comp ∧
      comp.denom = 0 ∧ comp.fracA = none ∧ comp.fracT = none ∧
      comp.fracG = none ∧ comp.fracC = none ∧
      gc_fraction "NN".data "canonical" true = .ok none := by
  refine ⟨compOf "NN".data "canonical" true, rfl, by decide, ?_⟩
  have h := C2_fractions_defined_iff_denom_pos "NN".data "canonical" true
    (compOf "NN".data "canonical" true) rfl
  refine ⟨?_, ?_, ?_, ?_, ?_⟩
  · exact (h.2.1 (by decide)).1
  · exact (h.2.1 (by decide)).2.1
  · exact (h.2.1 (by decide)).2.2.1
  · exact (h.2.1 (by decide)).2.2.2
  · have h3 := h.2.2
    rw [if_pos (by decide : (compOf "NN".data "canonical" true).denom = 0)] at h3
    exact h3

/-- The four formats of `format_detect`. -/
inductive FileFormat
  | fasta
  | fastq
  | genbank
  | embl
deriving DecidableEq

/-- The extension tests of `detect_file_format`, run on the lowercased
filename: `endswith` against `.fa/.fasta`, then `.fq/.fastq`, then
`.gb/.gbk`, then `.embl`. -/
def detectFromLower (name : List Char) : Option FileFormat :=
  if ".fa".data <:+ name ∨ ".fasta".data <:+ name then some .fasta
  else if ".fq".data <:+ name ∨ ".fastq".data <:+ name then some .fastq
  else if ".gb".data <:+ name ∨ ".gbk".data <:+ name then some .genbank
  else if ".embl".data <:+ name then some .embl
  else none

/-- Embeds `format_detect.detect_file_format`: lowercase the filename, then match
extensions. -/
def detect_file_format (filename : List Char) : Option FileFormat :=
  detectFromLower (filename.map Char.toLower)

/-- Embeds `format_detect.sniff_fasta_fastq`: `lstrip`, then `>` means FASTA and
`@` means FASTQ; anything else (including an all-whitespace prefix) is
undetermined. -/
def sniff_fasta_fastq (pre : List Char) : Option FileFormat :=
  match pre.dropWhile Char.isWhitespace with
  | [] => none
  | ch :: _ =>
    if ch = '>' then some .fasta
    else if ch = '@' then some .fastq
    else none

/-- The format-resolution flow shared by `get_sequence_stats` and
`process_sequences_universal`: the filename extension decides when it
matches, otherwise a decoded content prefix is sniffed. -/
def resolveFormat (filename : List Char) (decodedPre : List Char) :
    Option FileFormat :=
  match detect_file_format filename with
  | some f => some f
  | none => sniff_fasta_fastq decodedPre

theorem not_suffix_of_both {t g b : List Char} (hg : g <:+ t)
    (h1 : ¬ b <:+ g) (h2 : ¬ g <:+ b) : ¬ b <:+ t := fun hb =>
  (List.suffix_or_suffix_of_suffix hb hg).elim h1 h2

theorem detectFromLower_fa (nm : List Char) (h : ".fa".data <:+ nm) :
    detectFromLower nm = some .fasta := by
  unfold detectFromLower
  rw [if_pos (Or.inl h)]

theorem detectFromLower_fasta (nm : List Char) (h : ".fasta".data <:+ nm) :
    detectFromLower nm = some .fasta := by
  unfold detectFromLower
  rw [if_pos (Or.inr h)]

theorem detectFromLower_fq (nm : List Char) (h : ".fq".data <:+ nm) :
    detectFromLower nm = some .fastq := by
  have h1 := not_suffix_of_both h (by decide) (by decide)
    (b := ".fa".data)
  have h2 := not_suffix_of_both h (by decide) (by decide)
    (b := ".fasta".data)
  unfold detectFromLower
  rw [if_neg (by tauto), if_pos (Or.inl h)]

theorem detectFromLower_fastq (nm : List Char) (h : ".fastq".data <:+ nm) :
    detectFromLower nm = some .fastq := by
  have h1 := not_suffix_of_both h (by decide) (by decide)
    (b := ".fa".data)
  have h2 := not_suffix_of_both h (by decide) (by decide)
    (b := ".fasta".data)
  unfold detectFromLower
  rw [if_neg (by tauto), if_pos (Or.inr h)]

theorem detectFromLower_gb (nm : List Char) (h : ".gb".data <:+ nm) :
    detectFromLower nm = some .genbank := by
  have h1 := not_suffix_of_both h (by decide) (by decide)
    (b := ".fa".data)
  have h2 := not_suffix_of_both h (by decide) (by decide)
    (b := ".fasta".data)
  have h3 := not_suffix_of_both h (by decide) (by decide)
    (b := ".fq".data)
  have h4 := not_suffix_of_both h (by decide) (by decide)
    (b := ".fastq".data)
  unfold detectFromLower
  rw [if_neg (by tauto), if_neg (by tauto), if_pos (Or.inl h)]

theorem detectFromLower_gbk (nm : List Char) (h : ".gbk".data <:+ nm) :
    detectFromLower nm = some .genbank := by
  have h1 := not_suffix_of_both h (by decide) (by decide)
    (b := ".fa".data)
  have h2 := not_suffix_of_both h (by decide) (by decide)
    (b := ".fasta".data)
  have h3 := not_suffix_of_both h (by decide) (by decide)
    (b := ".fq".data)
  have h4 := not_suffix_of_both h (by decide) (by decide)
    (b := ".fastq".data)
  unfold detectFromLower
  rw [if_neg (by tauto), if_neg (by tauto), if_pos (Or.inr h)]

theorem detectFromLower_embl (nm : List Char) (h : ".embl".data <:+ nm) :
    detectFromLower nm = some .embl := by
  have h1 := not_suffix_of_both h (by decide) (by decide)
    (b := ".fa".data)
  have h2 := not_suffix_of_both h (by decide) (by decide)
    (b := ".fasta".data)
  have h3 := not_suffix_of_both h (by decide) (by decide)
    (b := ".fq".data)
  have h4 := not_suffix_of_both h (by decide) (by decide)
    (b := ".fastq".data)
  have h5 := not_suffix_of_both h (by decide) (by decide)
    (b := ".gb".data)
  have h6 := not_suffix_of_both h (by decide) (by decide)
    (b := ".gbk".data)
  unfold detectFromLower
  rw [if_neg (by tauto), if_neg (by tauto), if_neg (by tauto), if_pos h]

/-- C4 counterexample.  The filename `sample.fq.gz` does NOT resolve from
the filename alone (`detect_file_format` returns nothing, because the `.gz`
suffix is never stripped before the extension match), and the resolved
format then depends on the decoded content: a `>` prefix yields FASTA, an
`@` prefix yields FASTQ — refuting "resolves to Fastq regardless of the
content". -/
theorem C4_counterexample :
    detect_file_format "sample.fq.gz".data = none ∧
    resolveFormat "sample.fq.gz".data ">seq1".data = some FileFormat.fasta ∧
    resolveFormat "sample.fq.gz".data "@r1".data = some FileFormat.fastq ∧
    some FileFormat.fasta ≠ some FileFormat.fastq := by
  refine ⟨by decide, by decide, by decide, by decide⟩

/-- C4 amended.  For every filename whose extension matches the fixed
mapping as a case-insensitive suffix of the filename as given (no
compression-suffix stripping happens anywhere), `detect_file_format`
returns that format from the filename alone; `sample.fq.gz` matches no
extension, so its resolution falls back entirely to content sniffing; and
a filename lacking any recognized extension whose decoded content's first
non-whitespace character is `>` resolves to Fasta. -/
theorem C4_extension_then_sniff :
    (∀ name : List Char,
      (".fa".data <:+ name.map Char.toLower →
        detect_file_format name = some FileFormat.fasta) ∧
      (".fasta".data <:+ name.map Char.toLower →
        detect_file_format name = some FileFormat.fasta) ∧
      (".fq".data <:+ name.map Char.toLower →
        detect_file_format name = some FileFormat.fastq) ∧
      (".fastq".data <:+ name.map Char.toLower →
        detect_file_format name = some FileFormat.fastq) ∧
      (".gb".data <:+ name.map Char.toLower →
        detect_file_format name = some FileFormat.genbank) ∧
      (".gbk".data <:+ name.map Char.toLower →
        detect_file_format name = some FileFormat.genbank) ∧
      (".embl".data <:+ name.map Char.toLower →
        detect_file_format name = some FileFormat.embl)) ∧
    (∀ content : List Char,
      resolveFormat "sample.fq.gz".data content = sniff_fasta_fastq content) ∧
    (∀ name content rest : List Char,
      detect_file_format name = none →
      content.dropWhile Char.isWhitespace = '>' :: rest →
      resolveFormat name content = some FileFormat.fasta) := by
  refine ⟨?_, ?_, ?_⟩
  · intro name
    exact ⟨detectFromLower_fa _, detectFromLower_fasta _,
      detectFromLower_fq _, detectFromLower_fastq _,
      detectFromLower_gb _, detectFromLower_gbk _, detectFromLower_embl _⟩
  · intro content
    unfold resolveFormat
    rw [(by decide : detect_file_format "sample.fq.gz".data = none)]
  · intro name content rest hdet hdrop
    unfold resolveFormat
    rw [hdet]
    unfold sniff_fasta_fastq
    rw [hdrop]
    simp

/-- Witness for the amended C4 at concrete inputs: a mixed-case `.FQ`
filename resolves to FASTQ from its name alone, and an unrecognized
filename with `>`-content resolves to FASTA. -/
theorem C4_extension_then_sniff_witness :
    detect_file_format "READS.FQ".data = some FileFormat.fastq ∧
    resolveFormat "sample.fq.gz".data "@r1".data =
      sniff_fasta_fastq "@r1".data ∧
    resolveFormat "noext".data "  >x".data = some FileFormat.fasta := by
  refine ⟨?_, ?_, ?_⟩
  · exact (C4_extension_then_sniff.1 "READS.FQ".data).2.2.1 (by decide)
  · exact C4_extension_then_sniff.2.1 "@r1".data
  · exact C4_extension_then_sniff.2.2 "noext".data "  >x".data "x".data
      (by decide) (by decide)

/-- A raw FASTA-like record as yielded by the external parser
(`SeqIO.parse`): id, description, sequence. -/
structure FastaRaw where
  id : List Char
  description : List Char
  seq : List Char
deriving DecidableEq

/-- A raw FASTQ record as yielded by the external parser
(`FastqGeneralIterator`): header line, sequence, quality string. -/
structure FastqRaw where
  title : List Char
  seq : List Char
  qual : List Char
deriving DecidableEq

/-- Expression `title.split(None, 1)[0]`: the first whitespace-delimited token of the
header line.  (Python raises IndexError on an all-whitespace title; this
total embedding returns `[]` there — no claim touches that edge.) -/
def firstToken (title : List Char) : List Char :=
  (title.dropWhile Char.isWhitespace).takeWhile (fun ch => ¬ ch.isWhitespace)

/-- Expression `(sum((ord(c) - 33) for c in qual) / len(qual)) if qual else 0.0`. -/
def avgQuality (qual : List Char) : ℚ :=
  if qual = [] then 0
  else (((qual.map (fun ch => (ch.toNat : ℤ) - 33)).sum : ℤ) : ℚ) / (qual.length : ℚ)

/-- Expression `seq[0] if seq else ""` as a string. -/
def firstBase (s : List Char) : List Char :=
  match s with
  | [] => []
  | ch :: _ => [ch]

/-- Expression `seq[-1] if seq else ""` as a string. -/
def lastBase (s : List Char) : List Char :=
  match s.getLast? with
  | none => []
  | some ch => [ch]

/-- The output row built by `process_fasta_like_stream` for one record. -/
structure FastaRow where
  ID : List Char
  Description : List Char
  Sequence : List Char
  Length : Nat
  GC_percent : Option ℚ
  A : Nat
  T : Nat
  G : Nat
  C : Nat
  N : Nat
  AMB : Nat
  denom_used : Nat
  First_base : List Char
  Last_base : List Char
deriving DecidableEq

/-- The output row built by `process_fastq_stream` for one record.  These
fields are exactly the dict keys the source emits: the only quality-derived
field is `Avg_quality` (plus the raw `Quality` string). -/
structure FastqRow where
  ID : List Char
  Title : List Char
  Sequence : List Char
  Quality : List Char
  Length : Nat
  GC_percent : Option ℚ
  Avg_quality : ℚ
  A : Nat
  T : Nat
  G : Nat
  C : Nat
  N : Nat
  AMB : Nat
  denom_used : Nat
deriving DecidableEq

/-- Assembling the FASTA-like row from a raw record and its analyses. -/
def buildFastaRow (r : FastaRaw) (comp : BaseComposition) (gc : Option ℚ) :
    FastaRow :=
  { ID := r.id, Description := r.description, Sequence := r.seq
    Length := r.seq.length
    GC_percent := gc.map (fun x => 100 * x)
    A := comp.a, T := comp.t, G := comp.g, C := comp.c, N := comp.n
    AMB := comp.amb, denom_used := comp.denom
    First_base := firstBase r.seq, Last_base := lastBase r.seq }

/-- Assembling the FASTQ row from a raw record and its analyses. -/
def buildFastqRow (r : FastqRaw) (comp : BaseComposition) (gc : Option ℚ) :
    FastqRow :=
  { ID := firstToken r.title, Title := r.title, Sequence := r.seq
    Quality := r.qual, Length := r.seq.length
    GC_percent := gc.map (fun x => 100 * x)
    Avg_quality := avgQuality r.qual
    A := comp.a, T := comp.t, G := comp.g, C := comp.c, N := comp.n
    AMB := comp.amb, denom_used := comp.denom }

/-- The FASTA-like row produced on a valid mode. -/
def mkFastaRow (mode : String) (r : FastaRaw) : FastaRow :=
  buildFastaRow r (compOf r.seq mode true) (gcOf r.seq mode true)

/-- The FASTQ row produced on a valid mode. -/
def mkFastqRow (mode : String) (r : FastqRaw) : FastqRow :=
  buildFastqRow r (compOf r.seq mode true) (gcOf r.seq mode true)

/-- Line `if wanted_ids is not None and record_id not in wanted_ids: continue`. -/
def skipRecord (wanted : Option (Finset (List Char))) (r : FastqRaw) : Bool :=
  match wanted with
  | none => false
  | some w => if firstToken r.title ∈ w then false else true

/-- The loop of `process_fasta_like_stream`: `enumerate(..., start=1)` with
`if i > max_records: break`, then composition analysis and row assembly. -/
def processFastaGo (mode : String) (maxRecords : Nat) :
    List FastaRaw → Nat → Except String (List FastaRow)
  | [], _ => .ok []
  | r :: rs, i =>
    if i > maxRecords then .ok []
    else do
      let comp ← atgc_content r.seq mode true
      let gc ← gc_fraction r.seq mode true
      let rest ← processFastaGo mode maxRecords rs (i + 1)
      pure (buildFastaRow r comp gc :: rest)

/-- Embeds `processors.process_fasta_like_stream` over the external parser's
record list. -/
def process_fasta_like_stream (records : List FastaRaw) (mode : String)
    (maxRecords : Nat) : Except String (List FastaRow) :=
  processFastaGo mode maxRecords records 1

/-- The loop of `process_fastq_stream`: skip filtered-out records without
counting them, analyze kept ones, append the row, and break once
`kept >= max_records`. -/
def processFastqGo (mode : String) (maxRecords : Nat)
    (wanted : Option (Finset (List Char))) :
    List FastqRaw → Nat → Except String (List FastqRow)
  | [], _ => .ok []
  | r :: rs, kept =>
    if skipRecord wanted r then processFastqGo mode maxRecords wanted rs kept
    else do
      let comp ← atgc_content r.seq mode true
      let gc ← gc_fraction r.seq mode true
      let row := buildFastqRow r comp gc
      if kept + 1 ≥ maxRecords then pure [row]
      else do
        let rest ← processFastqGo mode maxRecords wanted rs (kept + 1)
        pure (row :: rest)

/-- Embeds `processors.process_fastq_stream` over the external parser's record
list. -/
def process_fastq_stream (records : List FastqRaw) (mode : String)
    (maxRecords : Nat) (wanted : Option (Finset (List Char))) :
    Except String (List FastqRow) :=
  processFastqGo mode maxRecords wanted records 0

theorem processFastqGo_characterization (mode : String) (hm : validMode mode)
    (maxRecords : Nat) (wanted : Option (Finset (List Char))) :
    ∀ (rs : List FastqRaw) (kept : Nat), kept < maxRecords →
      processFastqGo mode maxRecords wanted rs kept =
        .ok (((rs.filter (fun r => ! skipRecord wanted r)).take
          (maxRecords - kept)).map (mkFastqRow mode)) := by
  intro rs
  induction rs with
  | nil => intro kept _; simp [processFastqGo]
  | cons r rs ih =>
    intro kept hk
    rw [processFastqGo]
    cases hsk : skipRecord wanted r with
    | true =>
      rw [if_pos rfl, ih kept hk]
      simp [hsk]
    | false =>
      rw [if_neg (by simp)]
      rw [show (do
            let comp ← atgc_content r.seq mode true
            let gc ← gc_fraction r.seq mode true
            let row := buildFastqRow r comp gc
            if kept + 1 ≥ maxRecords then pure [row]
            else do
              let rest ← processFastqGo mode maxRecords wanted rs (kept + 1)
              pure (row :: rest) : Except String (List FastqRow)) =
          (if kept + 1 ≥ maxRecords then pure [mkFastqRow mode r]
            else do
              let rest ← processFastqGo mode maxRecords wanted rs (kept + 1)
              pure (mkFastqRow mode r :: rest)) from by
        rw [atgc_content_valid r.seq mode true hm,
          gc_fraction_valid r.seq mode true hm]
        rfl]
      by_cases hge : kept + 1 ≥ maxRecords
      · rw [if_pos hge]
        have hmr : maxRecords - kept = 1 := by omega
        simp [hsk, hmr, List.take]
        rfl
      · rw [if_neg hge, ih (kept + 1) (by omega)]
        have hmr : maxRecords - kept = (maxRecords - (kept + 1)) + 1 := by omega
        simp only [List.filter_cons, hsk]
        rw [hmr]
        simp [List.take_succ_cons]

theorem processFastaGo_characterization (mode : String) (hm : validMode mode)
    (maxRecords : Nat) :
    ∀ (rs : List FastaRaw) (i : Nat),
      processFastaGo mode maxRecords rs i =
        .ok ((rs.take (maxRecords + 1 - i)).map (mkFastaRow mode)) := by
  intro rs
  induction rs with
  | nil => intro i; simp [processFastaGo]
  | cons r rs ih =>
    intro i
    rw [processFastaGo]
    by_cases hi : i > maxRecords
    · rw [if_pos hi]
      have : maxRecords + 1 - i = 0 := by omega
      simp [this]
    · rw [if_neg hi]
      rw [atgc_content_valid r.seq mode true hm,
        gc_fraction_valid r.seq mode true hm]
      have : maxRecords + 1 - i = (maxRecords + 1 - (i + 1)) + 1 := by omega
      rw [this]
      simp only [List.take_succ_cons, List.map_cons]
      rw [show processFastaGo mode maxRecords rs (i + 1) =
        .ok ((rs.take (maxRecords + 1 - (i + 1))).map (mkFastaRow mode)) from
        ih (i + 1)]
      rfl

theorem not_skipRecord_none (r : FastqRaw) : (! skipRecord none r) = true := rfl

theorem not_skipRecord_some (w : Finset (List Char)) (r : FastqRaw) :
    (! skipRecord (some w) r) = decide (firstToken r.title ∈ w) := by
  unfold skipRecord
  by_cases h : firstToken r.title ∈ w <;> simp [h]

/-- C3.  With a valid mode and a positive cap: the FASTA-like stream and the
unfiltered FASTQ stream (the two universal-pipeline paths) return exactly
`min cap n` rows for `n` upstream records, and the filtered FASTQ stream
returns exactly the rows of the first `cap` records whose identifier passes
the filter — skipped records do not count toward the cap, and iteration
stops at upstream exhaustion or `cap` kept records, whichever is first. -/
theorem C3_cap_enforcement (mode : String) (hm : validMode mode) (cap : Nat)
    (hcap : 0 < cap) (fastaRecs : List FastaRaw) (fastqRecs : List FastqRaw)
    (w : Finset (List Char)) :
    (process_fasta_like_stream fastaRecs mode cap).map List.length =
      .ok (min cap fastaRecs.length) ∧
    (process_fastq_stream fastqRecs mode cap none).map List.length =
      .ok (min cap fastqRecs.length) ∧
    process_fastq_stream fastqRecs mode cap (some w) =
      .ok (((fastqRecs.filter
        (fun r => decide (firstToken r.title ∈ w))).take cap).map
          (mkFastqRow mode)) := by
  refine ⟨?_, ?_, ?_⟩
  · unfold process_fasta_like_stream
    rw [processFastaGo_characterization mode hm cap fastaRecs 1]
    simp [Except.map]
  · unfold process_fastq_stream
    rw [processFastqGo_characterization mode hm cap none fastqRecs 0 hcap]
    simp [Except.map, not_skipRecord_none]
  · unfold process_fastq_stream
    have hfun : (fun r => ! skipRecord (some w) r) =
        (fun r : FastqRaw => decide (firstToken r.title ∈ w)) :=
      funext (not_skipRecord_some w)
    rw [processFastqGo_characterization mode hm cap (some w) fastqRecs 0 hcap,
      hfun, Nat.sub_zero]

/-- Witness for C3 at concrete inputs: three upstream FASTQ records, cap 2,
and a filter keeping only `r2`. -/
theorem C3_cap_enforcement_witness :
    (process_fasta_like_stream
        [⟨"s1".data, "d1".data, "ACGT".data⟩,
         ⟨"s2".data, "d2".data, "GGCC".data⟩,
         ⟨"s3".data, "d3".data, "TTAA".data⟩] "canonical" 2).map List.length =
      .ok 2 ∧
    (process_fastq_stream
        [⟨"r1 x".data, "ACGT".data, "IIII".data⟩,
         ⟨"r2 y".data, "GGCC".data, "IIII".data⟩,
         ⟨"r3 z".data, "TTAA".data, "IIII".data⟩] "canonical" 2 none).map
        List.length = .ok 2 ∧
    process_fastq_stream
        [⟨"r1 x".data, "ACGT".data, "IIII".data⟩,
         ⟨"r2 y".data, "GGCC".data, "IIII".data⟩,
         ⟨"r3 z".data, "TTAA".data, "IIII".data⟩] "canonical" 2
        (some {"r2".data}) =
      .ok [mkFastqRow "canonical" ⟨"r2 y".data, "GGCC".data, "IIII".data⟩] := by
  have h := C3_cap_enforcement "canonical" (Or.inl rfl) 2 (by decide)
    [⟨"s1".data, "d1".data, "ACGT".data⟩,
     ⟨"s2".data, "d2".data, "GGCC".data⟩,
     ⟨"s3".data, "d3".data, "TTAA".data⟩]
    [⟨"r1 x".data, "ACGT".data, "IIII".data⟩,
     ⟨"r2 y".data, "GGCC".data, "IIII".data⟩,
     ⟨"r3 z".data, "TTAA".data, "IIII".data⟩] {"r2".data}
  refine ⟨?_, ?_, ?_⟩
  · rw [h.1]; rfl
  · rw [h.2.1]; rfl
  · rw [h.2.2]
    congr 1

/-- C9.  A FASTQ read with an empty quality string is a valid input, not an
error case: the stream processes it normally and the computed average
quality of its row is exactly 0 (the guarded branch, no division is
attempted). -/
theorem C9_empty_quality_average_zero (title seq : List Char) (mode : String)
    (hm : validMode mode) (maxRecords : Nat) (hcap : 0 < maxRecords) :
    process_fastq_stream [⟨title, seq, []⟩] mode maxRecords none =
      .ok [mkFastqRow mode ⟨title, seq, []⟩] ∧
    (mkFastqRow mode ⟨title, seq, []⟩).Avg_quality = 0 := by
  constructor
  · unfold process_fastq_stream
    rw [processFastqGo_characterization mode hm maxRecords none
      [⟨title, seq, []⟩] 0 hcap]
    obtain ⟨m, rfl⟩ : ∃ m, maxRecords = m + 1 := ⟨maxRecords - 1, by omega⟩
    simp [skipRecord]
  · rfl

/-- Witness for C9 at a concrete input. -/
theorem C9_empty_quality_average_zero_witness :
    process_fastq_stream [⟨"r1".data, "ACGT".data, []⟩] "canonical" 10 none =
      .ok [mkFastqRow "canonical" ⟨"r1".data, "ACGT".data, []⟩] ∧
    (mkFastqRow "canonical" ⟨"r1".data, "ACGT".data, []⟩).Avg_quality = 0 :=
  C9_empty_quality_average_zero "r1".data "ACGT".data "canonical"
    (Or.inl rfl) 10 (by decide)

/-- C6 counterexample.  An invocation with the invalid mode `"weird"` on an
input containing no records raises nothing at all: the stream returns an
empty result, so the invalid-mode error is NOT surfaced before parsing
begins — it is only ever raised from inside per-record analysis. -/
theorem C6_counterexample :
    process_fastq_stream [] "weird" 10 none = .ok [] ∧
    process_fasta_like_stream [] "weird" 10 = .ok [] ∧
    ¬ validMode "weird" :=
  ⟨rfl, rfl, by decide⟩

/-- C6 amended.  The invalid-mode error is raised by the composition
analyzer while the first record is being analyzed: with an invalid mode, a
positive cap, and at least one upstream record (no filter), both streams
return the invalid-mode error — but the first record has already been read
from upstream, and an invocation whose input holds no records returns an
empty result with no error at all. -/
theorem C6_invalid_mode_on_first_record (mode : String)
    (hm : ¬ validMode mode) (maxRecords : Nat) (hcap : 0 < maxRecords)
    (r : FastqRaw) (rs : List FastqRaw) (fr : FastaRaw)
    (frs : List FastaRaw) :
    process_fastq_stream (r :: rs) mode maxRecords none =
      .error "mode must be raw or canonical" ∧
    process_fasta_like_stream (fr :: frs) mode maxRecords =
      .error "mode must be raw or canonical" ∧
    process_fastq_stream [] mode maxRecords none = .ok [] ∧
    process_fasta_like_stream [] mode maxRecords = .ok [] := by
  refine ⟨?_, ?_, rfl, rfl⟩
  · show processFastqGo mode maxRecords none (r :: rs) 0 = _
    rw [processFastqGo,
      if_neg (by simp [skipRecord] : ¬ skipRecord none r = true),
      atgc_content_invalid r.seq mode true hm]
    rfl
  · show processFastaGo mode maxRecords (fr :: frs) 1 = _
    rw [processFastaGo, if_neg (by omega),
      atgc_content_invalid fr.seq mode true hm]
    rfl

/-- Witness for the amended C6 at concrete inputs, mode `"weird"`. -/
theorem C6_invalid_mode_on_first_record_witness :
    process_fastq_stream [⟨"r1".data, "ACGT".data, "IIII".data⟩] "weird" 10
      none = .error "mode must be raw or canonical" ∧
    process_fasta_like_stream [⟨"s1".data, "d1".data, "ACGT".data⟩] "weird"
      10 = .error "mode must be raw or canonical" :=
  have h := C6_invalid_mode_on_first_record "weird" (by decide) 10 (by decide)
    ⟨"r1".data, "ACGT".data, "IIII".data⟩ []
    ⟨"s1".data, "d1".data, "ACGT".data⟩ []
  ⟨h.1, h.2.1⟩

/-- C5 (supporting theorem for a code bug).  The quality analysis actually
performed by the FASTQ stream is ONLY the Phred+33 average: the row built
for a read with quality `"IIII"` is exactly `buildFastqRow`'s output, whose
single quality-derived field `Avg_quality` is `40`; the row type emitted by
the code has no minimum/maximum score field and no Q20/Q30 count or
percentage fields (those keys are read by the in-repository UI but are
never produced). -/
theorem C5_only_average_quality :
    process_fastq_stream [⟨"r1".data, "ACGT".data, "IIII".data⟩] "canonical"
      10 none =
      .ok [mkFastqRow "canonical" ⟨"r1".data, "ACGT".data, "IIII".data⟩] ∧
    (mkFastqRow "canonical" ⟨"r1".data, "ACGT".data, "IIII".data⟩).Avg_quality
      = 40 := by
  constructor
  · unfold process_fastq_stream
    rw [processFastqGo_characterization "canonical" (Or.inl rfl) 10 none
      [⟨"r1".data, "ACGT".data, "IIII".data⟩] 0 (by decide)]
    rfl
  · show avgQuality "IIII".data = 40
    unfold avgQuality
    rw [if_neg (by decide),
      show ("IIII".data.map (fun ch => (ch.toNat : ℤ) - 33)).sum = 160 from by
        decide,
      show ("IIII".data.length : ℚ) = 4 from by norm_num]
    norm_num

/-- Rounding `round(x, 2)` used by `get_sequence_stats`.  (Python rounds ties to
even; this embedding rounds ties up — the two differ only at exact
multiples of 0.005, which no claim exercises.) -/
def roundTo2 (q : ℚ) : ℚ :=
  ((round (q * 100) : ℤ) : ℚ) / 100

/-- The summary dict returned by `get_sequence_stats`. -/
structure StatsResult where
  filename : List Char
  format : String
  compression : String
  total_sequences : Nat
  total_bases : Nat
  average_length : ℚ
  average_gc_content : ℚ
deriving DecidableEq

/-- The accumulation loop of `get_sequence_stats`'s FASTQ branch: per
record it adds the length to `total_bases`, folds an undefined GC as 0
into `total_gc_percent`, and bumps `count`.  The quality string is bound by
the loop but never used. -/
def statsFastqGo (mode : String) :
    List FastqRaw → Nat → Nat → ℚ → Except String (Nat × Nat × ℚ)
  | [], count, bases, gcp => .ok (count, bases, gcp)
  | r :: rs, count, bases, gcp => do
    let gc ← gc_fraction r.seq mode true
    statsFastqGo mode rs (count + 1) (bases + r.seq.length)
      (gcp + (match gc with | none => 0 | some x => 100 * x))

/-- Embeds `processors.get_sequence_stats`, FASTQ branch, after decoding and
format resolution (the byte decoding and the external parser are outside
the core; `filename` and `compression` are pass-through report fields). -/
def get_sequence_stats_fastq (filename : List Char) (compression : String)
    (records : List FastqRaw) (mode : String) : Except String StatsResult := do
  let acc ← statsFastqGo mode records 0 0 0
  pure { filename := filename, format := "fastq", compression := compression
         total_sequences := acc.1, total_bases := acc.2.1
         average_length :=
           roundTo2 (if acc.1 = 0 then 0 else (acc.2.1 : ℚ) / (acc.1 : ℚ))
         average_gc_content :=
           roundTo2 (if acc.1 = 0 then 0 else acc.2.2 / (acc.1 : ℚ)) }

theorem statsFastqGo_ignores_quality (mode : String)
    (f : List Char → List Char) :
    ∀ (records : List FastqRaw) (count bases : Nat) (gcp : ℚ),
      statsFastqGo mode
          (records.map (fun r => ⟨r.title, r.seq, f r.qual⟩)) count bases gcp =
        statsFastqGo mode records count bases gcp := by
  intro records
  induction records with
  | nil => intro count bases gcp; rfl
  | cons r rs ih =>
    intro count bases gcp
    simp only [List.map_cons, statsFastqGo]
    cases hgc : gc_fraction r.seq mode true with
    | error e => rfl
    | ok x => exact ih _ _ _

/-- C7 (supporting theorem for a code bug).  The stats-only FASTQ pipeline
never accumulates quality: its returned summary is unchanged under ANY
rewriting of the records' quality strings, and the summary shape carries
only count, total bases, average length, and average GC — no total or
average Phred quality exists in the result. -/
theorem C7_stats_ignore_quality (filename : List Char) (compression : String)
    (records : List FastqRaw) (mode : String) (f : List Char → List Char) :
    get_sequence_stats_fastq filename compression
        (records.map (fun r => ⟨r.title, r.seq, f r.qual⟩)) mode =
      get_sequence_stats_fastq filename compression records mode := by
  unfold get_sequence_stats_fastq
  rw [statsFastqGo_ignores_quality mode f records 0 0 0]

/-- Split step of `processors._parse_id_list`: `.split(",")`. -/
def splitOnComma : List Char → List (List Char)
  | [] => [[]]
  | ch :: rest =>
    if ch = ',' then [] :: splitOnComma rest
    else
      match splitOnComma rest with
      | [] => [[ch]]
      | p :: ps => (ch :: p) :: ps

/-- Step `filter_ids.replace("\n", ",").replace(" ", ",")`: only newlines and
spaces are rewritten to commas (note: not tabs or other whitespace). -/
def delimReplace (s : List Char) : List Char :=
  s.map (fun ch => if ch = '\n' then ',' else if ch = ' ' then ',' else ch)

/-- Embeds `processors._parse_id_list`: `None`/empty input means no filter;
otherwise replace newlines and spaces by commas, split on commas, strip
each token, keep the non-empty ones as a set, and fall back to no filter
when the set is empty. -/
def parse_id_list : Option (List Char) → Option (Finset (List Char))
  | none => none
  | some s =>
    if s = [] then none
    else
      let raw := splitOnComma (delimReplace s)
      let ids := ((raw.map trimChars).filter (fun x => !x.isEmpty)).toFinset
      if ids = ∅ then none else some ids

/-- The result dict of `processors.filter_fastq`. -/
structure FilterResult where
  filename : List Char
  format : String
  compression : String
  total_sequences : Nat
  filtered : Bool
  filter_count : Nat
  sequences : List FastqRow
deriving DecidableEq

/-- Embeds `processors.filter_fastq`: reject non-FASTQ filenames, parse the
identifier filter, run the filtered stream, and report the rows plus
filter bookkeeping. -/
def filter_fastq (filename : List Char) (compression : String)
    (records : List FastqRaw) (filter_ids : Option (List Char))
    (mode : String) (maxRecords : Nat) : Except String FilterResult :=
  if detect_file_format filename ≠ some FileFormat.fastq then
    .error "This function only accepts FASTQ files"
  else
    let wanted := parse_id_list filter_ids
    (process_fastq_stream records mode maxRecords wanted).map fun seqs =>
      { filename := filename, format := "fastq", compression := compression
        total_sequences := seqs.length, filtered := wanted.isSome
        filter_count := (match wanted with | some w => w.card | none => 0)
        sequences := seqs }

theorem splitOnComma_ne_nil (l : List Char) : splitOnComma l ≠ [] := by
  cases l with
  | nil => exact fun h => List.noConfusion h
  | cons ch rest =>
    unfold splitOnComma
    split_ifs
    · simp
    · cases splitOnComma rest <;> simp

theorem splitOnComma_pieces (l : List Char) :
    ∀ p ∈ splitOnComma l, ∀ ch ∈ p, ch ∈ l ∧ ch ≠ ',' := by
  induction l with
  | nil =>
    intro p hp ch hch
    simp [splitOnComma] at hp
    subst hp
    simp at hch
  | cons c rest ih =>
    intro p hp ch hch
    unfold splitOnComma at hp
    by_cases hc : c = ','
    · rw [if_pos hc] at hp
      rcases List.mem_cons.mp hp with h | h
      · subst h; simp at hch
      · have := ih p h ch hch
        exact ⟨List.mem_cons_of_mem c this.1, this.2⟩
    · rw [if_neg hc] at hp
      cases hsp : splitOnComma rest with
      | nil => exact absurd hsp (splitOnComma_ne_nil rest)
      | cons q qs =>
        rw [hsp] at hp
        rcases List.mem_cons.mp hp with h | h
        · subst h
          rcases List.mem_cons.mp hch with h | h
          · exact ⟨by rw [h]; exact List.mem_cons_self c rest,
              by rw [h]; exact hc⟩
          · have := ih q (hsp ▸ List.mem_cons_self q qs) ch h
            exact ⟨List.mem_cons_of_mem c this.1, this.2⟩
        · have := ih p (hsp ▸ List.mem_cons_of_mem q h) ch hch
          exact ⟨List.mem_cons_of_mem c this.1, this.2⟩

theorem trimChars_eq_nil (p : List Char)
    (h : ∀ ch ∈ p, ch.isWhitespace) : trimChars p = [] := by
  unfold trimChars
  rw [List.dropWhile_eq_nil_iff.mpr h]
  rfl

theorem delimReplace_mem (s : List Char) (hw : ∀ ch ∈ s, ch.isWhitespace) :
    ∀ ch ∈ delimReplace s, ch = ',' ∨ ch.isWhitespace := by
  intro ch hch
  obtain ⟨orig, horig, heq⟩ := List.mem_map.mp hch
  subst heq
  by_cases h1 : orig = '\n'
  · simp [h1]
  · by_cases h2 : orig = ' '
    · simp [h1, h2]
    · simp only [if_neg h1, if_neg h2]
      exact Or.inr (hw orig horig)

theorem parse_id_list_whitespace (s : List Char)
    (hw : ∀ ch ∈ s, ch.isWhitespace) : parse_id_list (some s) = none := by
  simp only [parse_id_list]
  by_cases hs : s = []
  · rw [if_pos hs]
  · rw [if_neg hs]
    have hall : ∀ p ∈ splitOnComma (delimReplace s), trimChars p = [] := by
      intro p hp
      apply trimChars_eq_nil
      intro ch hch
      have hpc := splitOnComma_pieces (delimReplace s) p hp ch hch
      rcases delimReplace_mem s hw ch hpc.1 with h | h
      · exact absurd h hpc.2
      · exact h
    have hfil : (((splitOnComma (delimReplace s)).map trimChars).filter
        (fun x => !x.isEmpty)) = [] := by
      rw [List.filter_eq_nil_iff]
      intro x hx
      obtain ⟨p, hp, heq⟩ := List.mem_map.mp hx
      subst heq
      rw [hall p hp]
      simp
    rw [hfil]
    simp

/-- C8 counterexample.  A tab is whitespace, but the identifier parser only
rewrites newlines and spaces to delimiters: the input `"a\tb"` (two tokens
under "any mix of commas, whitespace, or newlines") yields the single token
`"a\tb"`, not the set `{"a", "b"}`. -/
theorem C8_counterexample :
    parse_id_list (some "a\tb".data) = some {"a\tb".data} ∧
    "a".data ∉ ({"a\tb".data} : Finset (List Char)) ∧
    "b".data ∉ ({"a\tb".data} : Finset (List Char)) := by
  refine ⟨by decide, by decide, by decide⟩

/-- C8 amended.  Identifier-set parsing splits on commas, spaces, and
newlines (any mix; tabs and other whitespace are not delimiters, though
surrounding whitespace is stripped from each token) into a deduplicated set
of non-empty tokens; an empty or whitespace-only filter string is treated
as no filter, so the filtered pipeline behaves exactly as with no filter:
it returns all records up to the cap and reports `filtered = false`, never
excluding everything. -/
theorem C8_empty_filter_no_filter :
    (∀ (s : List Char) (ids : Finset (List Char)),
      parse_id_list (some s) = some ids → [] ∉ ids) ∧
    (∀ s : List Char, (∀ ch ∈ s, ch.isWhitespace) →
      parse_id_list (some s) = none) ∧
    (∀ (filename : List Char) (compression : String)
        (records : List FastqRaw) (mode : String) (maxRecords : Nat)
        (s : List Char), (∀ ch ∈ s, ch.isWhitespace) →
      filter_fastq filename compression records (some s) mode maxRecords =
        filter_fastq filename compression records none mode maxRecords) ∧
    (∀ (filename : List Char) (compression : String)
        (records : List FastqRaw) (mode : String) (maxRecords : Nat),
      detect_file_format filename = some FileFormat.fastq →
      validMode mode → 0 < maxRecords →
      filter_fastq filename compression records none mode maxRecords =
        .ok { filename := filename, format := "fastq"
              compression := compression
              total_sequences := min maxRecords records.length
              filtered := false, filter_count := 0
              sequences := (records.take maxRecords).map (mkFastqRow mode) }) := by
  refine ⟨?_, parse_id_list_whitespace, ?_, ?_⟩
  · intro s ids hids
    simp only [parse_id_list] at hids
    by_cases hs : s = []
    · rw [if_pos hs] at hids; exact absurd hids (by simp)
    · rw [if_neg hs] at hids
      by_cases hz : ((((splitOnComma (delimReplace s)).map trimChars).filter
          (fun x => !x.isEmpty)).toFinset : Finset (List Char)) = ∅
      · rw [if_pos hz] at hids; exact absurd hids (by simp)
      · rw [if_neg hz] at hids
        injection hids with hids
        subst hids
        intro hmem
        have hmf := List.mem_filter.mp (List.mem_toFinset.mp hmem)
        simp at hmf
  · intro filename compression records mode maxRecords s hw
    unfold filter_fastq
    rw [parse_id_list_whitespace s hw]
    rfl
  · intro filename compression records mode maxRecords hdet hm hcap
    have hfil : (records.filter fun r => ! skipRecord none r) = records := by
      simp [skipRecord]
    have hproc : process_fastq_stream records mode maxRecords none =
        .ok ((records.take maxRecords).map (mkFastqRow mode)) := by
      unfold process_fastq_stream
      rw [processFastqGo_characterization mode hm maxRecords none records 0
        hcap, Nat.sub_zero, hfil]
    simp only [filter_fastq, parse_id_list]
    rw [if_neg (by simp [hdet]), hproc]
    simp only [Except.map, Option.isSome_none]
    rw [show ((records.take maxRecords).map (mkFastqRow mode)).length =
      min maxRecords records.length from by simp [List.length_take]]

/-- Witness for the amended C8 at concrete inputs: a whitespace-only filter
string on a two-record FASTQ stream behaves as no filter. -/
theorem C8_empty_filter_no_filter_witness :
    parse_id_list (some " \n\t ".data) = none ∧
    filter_fastq "x.fq".data "none"
        [⟨"r1".data, "ACGT".data, "IIII".data⟩,
         ⟨"r2".data, "GGCC".data, "IIII".data⟩] (some " \n\t ".data)
        "canonical" 5 =
      filter_fastq "x.fq".data "none"
        [⟨"r1".data, "ACGT".data, "IIII".data⟩,
         ⟨"r2".data, "GGCC".data, "IIII".data⟩] none "canonical" 5 ∧
    filter_fastq "x.fq".data "none"
        [⟨"r1".data, "ACGT".data, "IIII".data⟩,
         ⟨"r2".data, "GGCC".data, "IIII".data⟩] none "canonical" 5 =
      .ok { filename := "x.fq".data, format := "fastq", compression := "none"
            total_sequences := 2, filtered := false, filter_count := 0
            sequences :=
              [mkFastqRow "canonical" ⟨"r1".data, "ACGT".data, "IIII".data⟩,
               mkFastqRow "canonical" ⟨"r2".data, "GGCC".data, "IIII".data⟩] } := by
  refine ⟨C8_empty_filter_no_filter.2.1 " \n\t ".data (by decide),
    C8_empty_filter_no_filter.2.2.1 "x.fq".data "none" _ "canonical" 5
      " \n\t ".data (by decide), ?_⟩
  rw [C8_empty_filter_no_filter.2.2.2 "x.fq".data "none"
    [⟨"r1".data, "ACGT".data, "IIII".data⟩,
     ⟨"r2".data, "GGCC".data, "IIII".data⟩] "canonical" 5
    (by decide) (Or.inl rfl) (by decide)]
  rfl

end GenesisQC
